import Mathlib

/-!
# Verification development for `kea_metrics.c`

The program is a set of eleven BPF probe handlers that share one hash table
(`start`) and eight histogram tables.  Each handler is embedded as a pure
function on an explicit `State`; the values a handler obtains from the kernel
helpers (`bpf_get_current_pid_tgid`, `bpf_ktime_get_ns`,
`bpf_get_smp_processor_id`) are passed in as arguments.  Every handler returns
the constant `0` in the source, so only the state transformer is modelled.
-/

namespace KeaMetrics

/-! ## Machine integers -/

/-- The number of values of a `u32`. -/
def U32 : Nat := 2 ^ 32

/-- The number of values of a `u64`. -/
def U64 : Nat := 2 ^ 64

/-- The conversion `u32 pid = bpf_get_current_pid_tgid();`: the 64-bit helper
result is truncated to its low 32 bits. -/
def to_u32 (pid_tgid : Nat) : Nat := pid_tgid % U32

/-- The value of a `u64` variable initialised from `bpf_ktime_get_ns()`. -/
def to_u64 (x : Nat) : Nat := x % U64

/-- The subtraction `a - b` on `u64` operands: it wraps modulo `2 ^ 64`. -/
def u64_sub (a b : Nat) : Nat := (to_u64 a + (U64 - to_u64 b)) % U64

/-- The conversion `int cpu = bpf_get_smp_processor_id();`: the `u32` helper
result is reinterpreted as a 32-bit signed `int`, so results from `2 ^ 31` on
become negative. -/
def to_s32 (x : Nat) : Int :=
  if x % U32 < 2 ^ 31 then ((x % U32 : Nat) : Int) else ((x % U32 : Nat) : Int) - (U32 : Int)

/-! ## Tables -/

/-- Modelled from the spec: the table declared by the bcc macro
`BPF_HASH(start, u32)`, whose definition is not part of the source file.  It is a
finite mapping from a `u32` key to a `u64` timestamp, holding at most one entry
per key, kept here as an association list. -/
abbrev BPFHash := List (Nat × Nat)

namespace BPFHash

/-- Modelled from the spec: `table.lookup(&key)` returns the stored value, or
null (`none`) when the key has no entry. -/
def lookup (k : Nat) : BPFHash → Option Nat
  | [] => none
  | (k', v) :: m => if k' = k then some v else lookup k m

/-- Modelled from the spec: `table.delete(&key)` removes the entry of the key. -/
def delete (k : Nat) : BPFHash → BPFHash
  | [] => []
  | (k', v) :: m => if k' = k then delete k m else (k', v) :: delete k m

/-- Modelled from the spec: `table.update(&key, &val)` inserts the entry, or
overwrites the entry the key already has. -/
def update (k v : Nat) (m : BPFHash) : BPFHash := (k, v) :: delete k m

end BPFHash

/-- Modelled from the spec: the table declared by the bcc macro
`BPF_HISTOGRAM(name)`, whose definition is not part of the source file: a count
per bucket index, with no upper bound on the index. -/
abbrev BPFHistogram := Nat → Nat

namespace BPFHistogram

/-- Modelled from the spec: `table.increment(i)` adds one to the count of bucket
`i` and touches no other bucket. -/
def increment (h : BPFHistogram) (i : Nat) : BPFHistogram :=
  fun j => if j = i then h j + 1 else h j

/-- Modelled from the spec: `table.increment(key)` for a key held in a signed
`int`.  The buckets are indexed from 0: a non-negative key increments the
bucket of that index, and a negative key, which is no bucket index, increments
nothing. -/
def increment_int (h : BPFHistogram) (key : Int) : BPFHistogram :=
  match key with
  | Int.ofNat i => h.increment i
  | Int.negSucc _ => h

end BPFHistogram

/-- The floor of the base-two logarithm of `v`, by repeated halving; `fuel`
bounds the number of halvings, and the result is exact for `1 ≤ v < 2 ^ fuel`. -/
def log2_floor : Nat → Nat → Nat
  | 0, _ => 0
  | fuel + 1, v => if v < 2 then 0 else log2_floor fuel (v / 2) + 1

/-- Modelled from the spec: the bcc helper `bpf_log2l`, whose definition is not
part of the source file; its argument is a 64-bit `unsigned long`, and the
bucket of a duration `d` is `floor(log2(max(d, 1)))`. -/
def bpf_log2l (d : Nat) : Nat := log2_floor 64 (max d 1)

/-! ## State -/

/-- The nine global tables of the program (lines 6 to 14). -/
structure State where
  start : BPFHash
  packet_processing_time : BPFHistogram
  packet_drop_rate : BPFHistogram
  cpu_usage : BPFHistogram
  memory_usage : BPFHistogram
  network_traffic : BPFHistogram
  error_rates : BPFHistogram
  lease_allocation_time : BPFHistogram
  database_query_performance : BPFHistogram

/-- The state in which every table is empty. -/
def State.empty : State :=
  { start := []
    packet_processing_time := fun _ => 0
    packet_drop_rate := fun _ => 0
    cpu_usage := fun _ => 0
    memory_usage := fun _ => 0
    network_traffic := fun _ => 0
    error_rates := fun _ => 0
    lease_allocation_time := fun _ => 0
    database_query_performance := fun _ => 0 }

/-! ## Handlers

In every handler `pid_tgid` is the result of `bpf_get_current_pid_tgid()` and
`now` the result of `bpf_ktime_get_ns()` in that invocation. -/

/-- Handler `trace_start` (lines 16 to 21). -/
def trace_start (s : State) (pid_tgid now : Nat) : State :=
  let pid := to_u32 pid_tgid
  let ts := to_u64 now
  { s with start := s.start.update pid ts }

/-- The value of the local `delta` of an end handler (lines 27, 75 and 93), when
the lookup of the key succeeds; `none` when the branch is not taken. -/
def end_delta (s : State) (pid_tgid now : Nat) : Option Nat :=
  match s.start.lookup (to_u32 pid_tgid) with
  | some ts => some (u64_sub now ts)
  | none => none

/-- Handler `trace_end` (lines 23 to 32). -/
def trace_end (s : State) (pid_tgid now : Nat) : State :=
  let pid := to_u32 pid_tgid
  match s.start.lookup pid with
  | some ts =>
    let delta := u64_sub now ts
    { s with
      packet_processing_time := s.packet_processing_time.increment (bpf_log2l delta)
      start := s.start.delete pid }
  | none => s

/-- Handler `trace_packet_drop` (lines 34 to 37). -/
def trace_packet_drop (s : State) : State :=
  { s with packet_drop_rate := s.packet_drop_rate.increment 1 }

/-- Handler `trace_cpu_usage` (lines 39 to 44); `cpu_id` is the result of
`bpf_get_smp_processor_id()`, which line 41 stores in the `int cpu`. -/
def trace_cpu_usage (s : State) (cpu_id : Nat) : State :=
  let cpu : Int := to_s32 cpu_id
  { s with cpu_usage := s.cpu_usage.increment_int cpu }

/-- Handler `trace_memory_usage` (lines 46 to 50). -/
def trace_memory_usage (s : State) : State :=
  { s with memory_usage := s.memory_usage.increment 1 }

/-- Handler `trace_network_traffic` (lines 52 to 57). -/
def trace_network_traffic (s : State) : State :=
  { s with network_traffic := s.network_traffic.increment 1 }

/-- Handler `trace_error_rates` (lines 59 to 62). -/
def trace_error_rates (s : State) : State :=
  { s with error_rates := s.error_rates.increment 1 }

/-- Handler `trace_lease_allocation` (lines 64 to 69). -/
def trace_lease_allocation (s : State) (pid_tgid now : Nat) : State :=
  let pid := to_u32 pid_tgid
  let ts := to_u64 now
  { s with start := s.start.update pid ts }

/-- Handler `trace_lease_allocation_end` (lines 71 to 80). -/
def trace_lease_allocation_end (s : State) (pid_tgid now : Nat) : State :=
  let pid := to_u32 pid_tgid
  match s.start.lookup pid with
  | some ts =>
    let delta := u64_sub now ts
    { s with
      lease_allocation_time := s.lease_allocation_time.increment (bpf_log2l delta)
      start := s.start.delete pid }
  | none => s

/-- Handler `trace_database_query` (lines 82 to 87). -/
def trace_database_query (s : State) (pid_tgid now : Nat) : State :=
  let pid := to_u32 pid_tgid
  let ts := to_u64 now
  { s with start := s.start.update pid ts }

/-- Handler `trace_database_query_end` (lines 89 to 98). -/
def trace_database_query_end (s : State) (pid_tgid now : Nat) : State :=
  let pid := to_u32 pid_tgid
  match s.start.lookup pid with
  | some ts =>
    let delta := u64_sub now ts
    { s with
      database_query_performance :=
        s.database_query_performance.increment (bpf_log2l delta)
      start := s.start.delete pid }
  | none => s

/-! ## Dispatch by class and by event -/

/-- The three classes whose handlers come in a start/end pair. -/
inductive PairedClass where
  | packet
  | lease
  | database
  deriving DecidableEq, Repr

/-- The start handler of a paired class. -/
def PairedClass.start_handler : PairedClass → State → Nat → Nat → State
  | .packet => trace_start
  | .lease => trace_lease_allocation
  | .database => trace_database_query

/-- The end handler of a paired class. -/
def PairedClass.end_handler : PairedClass → State → Nat → Nat → State
  | .packet => trace_end
  | .lease => trace_lease_allocation_end
  | .database => trace_database_query_end

/-- The histogram table the end handler of a paired class increments. -/
def PairedClass.histogram : PairedClass → State → BPFHistogram
  | .packet => State.packet_processing_time
  | .lease => State.lease_allocation_time
  | .database => State.database_query_performance

/-- One invocation of one of the eleven handlers, with the helper results it
reads. -/
inductive Event where
  | start (pid_tgid now : Nat)
  | finish (pid_tgid now : Nat)
  | packet_drop
  | cpu_usage_sample (cpu_id : Nat)
  | memory_usage_sample
  | network_traffic_sample
  | error_rates_sample
  | lease_allocation (pid_tgid now : Nat)
  | lease_allocation_end (pid_tgid now : Nat)
  | database_query (pid_tgid now : Nat)
  | database_query_end (pid_tgid now : Nat)
  deriving DecidableEq, Repr

/-- The effect of one handler invocation. -/
def step (s : State) : Event → State
  | .start p t => trace_start s p t
  | .finish p t => trace_end s p t
  | .packet_drop => trace_packet_drop s
  | .cpu_usage_sample c => trace_cpu_usage s c
  | .memory_usage_sample => trace_memory_usage s
  | .network_traffic_sample => trace_network_traffic s
  | .error_rates_sample => trace_error_rates s
  | .lease_allocation p t => trace_lease_allocation s p t
  | .lease_allocation_end p t => trace_lease_allocation_end s p t
  | .database_query p t => trace_database_query s p t
  | .database_query_end p t => trace_database_query_end s p t

/-- The effect of a finite sequence of handler invocations, one after the
other. -/
def run (s : State) (es : List Event) : State := es.foldl step s

/-- Repeated invocations of the end handler of a class for one key, at the
given times. -/
def run_ends (c : PairedClass) (s : State) (pid_tgid : Nat) (times : List Nat) : State :=
  times.foldl (fun st t => c.end_handler st pid_tgid t) s

/-- Every bucket of every histogram table of `s'` is at least what it is in
`s`. -/
def State.tables_le (s s' : State) : Prop :=
  (∀ i, s.packet_processing_time i ≤ s'.packet_processing_time i) ∧
  (∀ i, s.packet_drop_rate i ≤ s'.packet_drop_rate i) ∧
  (∀ i, s.cpu_usage i ≤ s'.cpu_usage i) ∧
  (∀ i, s.memory_usage i ≤ s'.memory_usage i) ∧
  (∀ i, s.network_traffic i ≤ s'.network_traffic i) ∧
  (∀ i, s.error_rates i ≤ s'.error_rates i) ∧
  (∀ i, s.lease_allocation_time i ≤ s'.lease_allocation_time i) ∧
  (∀ i, s.database_query_performance i ≤ s'.database_query_performance i)

/-- The eight histogram tables of `s'` are those of `s`. -/
def State.tables_eq (s s' : State) : Prop :=
  s'.packet_processing_time = s.packet_processing_time ∧
  s'.packet_drop_rate = s.packet_drop_rate ∧
  s'.cpu_usage = s.cpu_usage ∧
  s'.memory_usage = s.memory_usage ∧
  s'.network_traffic = s.network_traffic ∧
  s'.error_rates = s.error_rates ∧
  s'.lease_allocation_time = s.lease_allocation_time ∧
  s'.database_query_performance = s.database_query_performance

/-! ## The repeated patterns -/

/-- A reference to one of the eight histogram tables of the state: how to read
it and how to replace it. -/
structure TableRef where
  get : State → BPFHistogram
  set : State → BPFHistogram → State

/-- The table `packet_processing_time`. -/
def TableRef.packet_processing_time : TableRef :=
  ⟨State.packet_processing_time, fun s h => { s with packet_processing_time := h }⟩

/-- The table `lease_allocation_time`. -/
def TableRef.lease_allocation_time : TableRef :=
  ⟨State.lease_allocation_time, fun s h => { s with lease_allocation_time := h }⟩

/-- The table `database_query_performance`. -/
def TableRef.database_query_performance : TableRef :=
  ⟨State.database_query_performance, fun s h => { s with database_query_performance := h }⟩

/-- The table `packet_drop_rate`. -/
def TableRef.packet_drop_rate : TableRef :=
  ⟨State.packet_drop_rate, fun s h => { s with packet_drop_rate := h }⟩

/-- The table `memory_usage`. -/
def TableRef.memory_usage : TableRef :=
  ⟨State.memory_usage, fun s h => { s with memory_usage := h }⟩

/-- The table `network_traffic`. -/
def TableRef.network_traffic : TableRef :=
  ⟨State.network_traffic, fun s h => { s with network_traffic := h }⟩

/-- The table `error_rates`. -/
def TableRef.error_rates : TableRef :=
  ⟨State.error_rates, fun s h => { s with error_rates := h }⟩

/-- The start pattern, written once: record the timestamp under the key. -/
def start_pattern (s : State) (pid_tgid now : Nat) : State :=
  { s with start := s.start.update (to_u32 pid_tgid) (to_u64 now) }

/-- The end pattern, written once for a table `T`: when the key has a pending
start, increment in `T` the bucket of the elapsed time and delete the entry. -/
def end_pattern (T : TableRef) (s : State) (pid_tgid now : Nat) : State :=
  match s.start.lookup (to_u32 pid_tgid) with
  | some ts =>
    let s' := T.set s ((T.get s).increment (bpf_log2l (u64_sub now ts)))
    { s' with start := s'.start.delete (to_u32 pid_tgid) }
  | none => s

/-- The occurrence pattern, written once for a table `T`: increment slot 1. -/
def occurrence_pattern (T : TableRef) (s : State) : State :=
  T.set s ((T.get s).increment 1)

/-! ## The halves of the result of `bpf_get_current_pid_tgid` -/

/-- The upper 32 bits of the 64-bit helper result.  The helper belongs to the
kernel, not to the source file; as the kernel defines it, the result is
`tgid << 32 | pid`, so this half is the tgid, the process id. -/
def tgid_half (pid_tgid : Nat) : Nat := (pid_tgid / U32) % U32

/-- The lower 32 bits of the 64-bit helper result: in the kernel's layout the
pid, which identifies the thread. -/
def pid_half (pid_tgid : Nat) : Nat := pid_tgid % U32


/-! ## Runs: keys, observations, interleavings -/

/-- The key of the start map that an invocation reads or writes: the truncated
pid of a start or end invocation, nothing for an occurrence invocation. -/
def Event.key : Event → Option Nat
  | .start p _ => some (to_u32 p)
  | .finish p _ => some (to_u32 p)
  | .lease_allocation p _ => some (to_u32 p)
  | .lease_allocation_end p _ => some (to_u32 p)
  | .database_query p _ => some (to_u32 p)
  | .database_query_end p _ => some (to_u32 p)
  | _ => none

/-- Whether an invocation is one of a start handler. -/
def Event.is_start : Event → Bool
  | .start _ _ => true
  | .lease_allocation _ _ => true
  | .database_query _ _ => true
  | _ => false

/-- The duration observation an invocation makes in state `s`: the class, the
key and the value of `delta`, when the invocation is one of an end handler that
finds a pending start. -/
def Event.observation (s : State) : Event → Option (PairedClass × Nat × Nat)
  | .finish p t => (end_delta s p t).map fun d => (.packet, to_u32 p, d)
  | .lease_allocation_end p t => (end_delta s p t).map fun d => (.lease, to_u32 p, d)
  | .database_query_end p t => (end_delta s p t).map fun d => (.database, to_u32 p, d)
  | _ => none

/-- The duration observations made along a run, in order. -/
def observations (s : State) : List Event → List (PairedClass × Nat × Nat)
  | [] => []
  | e :: es => (e.observation s).toList ++ observations (step s e) es

/-- The invocation of the start handler of a class. -/
def PairedClass.start_event : PairedClass → Nat → Nat → Event
  | .packet => Event.start
  | .lease => Event.lease_allocation
  | .database => Event.database_query

/-- The invocation of the end handler of a class. -/
def PairedClass.end_event : PairedClass → Nat → Nat → Event
  | .packet => Event.finish
  | .lease => Event.lease_allocation_end
  | .database => Event.database_query_end

/-- One start/end pair: its class, the helper result identifying the task, and
the times of the start and of the end. -/
structure Pair where
  cls : PairedClass
  pid_tgid : Nat
  t_start : Nat
  t_end : Nat
  deriving DecidableEq, Repr

/-- The key of a pair. -/
def Pair.key (x : Pair) : Nat := to_u32 x.pid_tgid

/-- The start invocation of a pair. -/
def Pair.start_event (x : Pair) : Event := x.cls.start_event x.pid_tgid x.t_start

/-- The end invocation of a pair. -/
def Pair.end_event (x : Pair) : Event := x.cls.end_event x.pid_tgid x.t_end

/-- The observation a pair is expected to produce: its class, its key and the
elapsed time. -/
def Pair.expected (x : Pair) : PairedClass × Nat × Nat :=
  (x.cls, x.key, x.t_end - x.t_start)

/-- The invocations of `es` on key `k`, in order. -/
def on_key (k : Nat) (es : List Event) : List Event :=
  es.filter fun e => e.key == some k

/-- The invocations of `es` that are not on key `k`, in order. -/
def off_key (k : Nat) (es : List Event) : List Event :=
  es.filter fun e => !(e.key == some k)

/-- The sequence `es` is an interleaving of the start/end pairs `pairs`: every
invocation of `es` is on the key of some pair, and the invocations on the key
of a pair are exactly its start followed by its end. -/
def interleaves (pairs : List Pair) (es : List Event) : Prop :=
  (∀ e ∈ es, ∃ x ∈ pairs, e.key = some x.key) ∧
  ∀ x ∈ pairs, on_key x.key es = [x.start_event, x.end_event]

/-- The total of the counts of a duration histogram; the buckets an end handler
can reach are those below 64. -/
def hist_total (h : BPFHistogram) : Nat := Finset.sum (Finset.range 64) h

/-- The total of all bucket counts of the three duration histograms. -/
def duration_total (s : State) : Nat :=
  hist_total s.packet_processing_time + hist_total s.lease_allocation_time +
    hist_total s.database_query_performance

/-- The number of entries pending in the start map. -/
def pending_count (s : State) : Nat := s.start.length

/-- The number of start-handler invocations in a sequence. -/
def start_count (es : List Event) : Nat := es.countP Event.is_start

/-- The distinct keys that start-handler invocations of a sequence used. -/
def started_keys (es : List Event) : List Nat :=
  ((es.filter Event.is_start).filterMap Event.key).dedup


/-! ## Map lemmas -/

theorem lookup_delete_self (k : Nat) (m : BPFHash) :
    BPFHash.lookup k (BPFHash.delete k m) = none := by
  induction m with
  | nil => rfl
  | cons e m ih =>
    obtain ⟨k', v⟩ := e
    by_cases h : k' = k
    · simp [BPFHash.delete, h, ih]
    · simp [BPFHash.delete, BPFHash.lookup, h, ih]

theorem lookup_delete_other (k k' : Nat) (m : BPFHash) (h : k' ≠ k) :
    BPFHash.lookup k' (BPFHash.delete k m) = BPFHash.lookup k' m := by
  induction m with
  | nil => rfl
  | cons e m ih =>
    obtain ⟨a, v⟩ := e
    by_cases ha : a = k
    · have hk : ¬ k = k' := fun e => h e.symm
      simp [BPFHash.delete, BPFHash.lookup, ha, ih, hk]
    · by_cases hb : a = k'
      · subst hb
        simp [BPFHash.delete, BPFHash.lookup, ha]
      · simp [BPFHash.delete, BPFHash.lookup, ha, hb, ih]

theorem delete_of_lookup_none (k : Nat) (m : BPFHash)
    (h : BPFHash.lookup k m = none) : BPFHash.delete k m = m := by
  induction m with
  | nil => rfl
  | cons e m ih =>
    obtain ⟨a, v⟩ := e
    by_cases ha : a = k
    · simp [BPFHash.lookup, ha] at h
    · simp only [BPFHash.lookup, ha, if_false] at h
      simp [BPFHash.delete, ha, ih h]

theorem delete_delete (k : Nat) (m : BPFHash) :
    BPFHash.delete k (BPFHash.delete k m) = BPFHash.delete k m :=
  delete_of_lookup_none k _ (lookup_delete_self k m)

theorem lookup_update_self (k v : Nat) (m : BPFHash) :
    BPFHash.lookup k (BPFHash.update k v m) = some v := by
  simp [BPFHash.update, BPFHash.lookup]

theorem lookup_update_other (k k' v : Nat) (m : BPFHash) (h : k' ≠ k) :
    BPFHash.lookup k' (BPFHash.update k v m) = BPFHash.lookup k' m := by
  have hk : ¬ k = k' := fun e => h e.symm
  simp [BPFHash.update, BPFHash.lookup, hk, lookup_delete_other k k' m h]

theorem delete_update (k v : Nat) (m : BPFHash) :
    BPFHash.delete k (BPFHash.update k v m) = BPFHash.delete k m := by
  simp [BPFHash.update, BPFHash.delete, delete_delete]

/-! ## Arithmetic lemmas -/

theorem to_u64_of_lt (t : Nat) (h : t < U64) : to_u64 t = t :=
  Nat.mod_eq_of_lt h

theorem to_u64_lt (t : Nat) : to_u64 t < U64 :=
  Nat.mod_lt _ (by decide)

theorem u64_sub_of_le (t1 t2 : Nat) (h12 : t1 ≤ t2) (h2 : t2 < U64) :
    u64_sub t2 t1 = t2 - t1 := by
  have h1 : t1 < U64 := lt_of_le_of_lt h12 h2
  unfold u64_sub to_u64
  rw [Nat.mod_eq_of_lt h2, Nat.mod_eq_of_lt h1]
  have : t2 + (U64 - t1) = (t2 - t1) + U64 := by omega
  rw [this, Nat.add_mod_right]
  exact Nat.mod_eq_of_lt (by omega)

theorem u64_sub_of_lt (t1 t2 : Nat) (h21 : t2 < t1) (h1 : t1 < U64) :
    u64_sub t2 t1 = t2 + U64 - t1 := by
  have h2 : t2 < U64 := lt_trans h21 h1
  unfold u64_sub to_u64
  rw [Nat.mod_eq_of_lt h2, Nat.mod_eq_of_lt h1]
  have : t2 + (U64 - t1) = t2 + U64 - t1 := by omega
  rw [this]
  exact Nat.mod_eq_of_lt (by omega)

theorem log2_floor_spec (fuel v : Nat) (h1 : 1 ≤ v) (h2 : v < 2 ^ fuel) :
    2 ^ log2_floor fuel v ≤ v ∧ v < 2 ^ (log2_floor fuel v + 1) := by
  induction fuel generalizing v with
  | zero => simp at h2; omega
  | succ n ih =>
    unfold log2_floor
    by_cases hv : v < 2
    · simp only [hv, if_true]
      constructor <;> simp <;> omega
    · simp only [hv, if_false]
      have hlt : v / 2 < 2 ^ n := by
        rw [pow_succ] at h2
        omega
      obtain ⟨ha, hb⟩ := ih (v / 2) (by omega) hlt
      rw [pow_succ] at hb
      constructor
      · rw [pow_succ]; omega
      · rw [pow_succ, pow_succ]; omega

theorem bpf_log2l_spec (d : Nat) (hd : d < U64) :
    2 ^ bpf_log2l d ≤ max d 1 ∧ max d 1 < 2 ^ (bpf_log2l d + 1) := by
  have h2 : max d 1 < 2 ^ 64 := by
    have : (1 : Nat) < 2 ^ 64 := by decide
    exact max_lt hd this
  exact log2_floor_spec 64 (max d 1) (le_max_right d 1) h2

theorem u64_sub_lt (a b : Nat) : u64_sub a b < U64 :=
  Nat.mod_lt _ (by decide)

/-! ## Handler lemmas -/

theorem update_update (k v v' : Nat) (m : BPFHash) :
    BPFHash.update k v (BPFHash.update k v' m) = BPFHash.update k v m := by
  simp [BPFHash.update, BPFHash.delete, delete_delete]

theorem start_handler_eq (c : PairedClass) (s : State) (p t : Nat) :
    c.start_handler s p t = { s with start := s.start.update (to_u32 p) (to_u64 t) } := by
  cases c <;> rfl

theorem end_handler_of_none (c : PairedClass) (s : State) (p now : Nat)
    (h : s.start.lookup (to_u32 p) = none) : c.end_handler s p now = s := by
  cases c <;>
    simp [PairedClass.end_handler, trace_end, trace_lease_allocation_end,
      trace_database_query_end, h]

theorem end_handler_start (c : PairedClass) (s : State) (p now ts : Nat)
    (h : s.start.lookup (to_u32 p) = some ts) :
    (c.end_handler s p now).start = s.start.delete (to_u32 p) := by
  cases c <;>
    simp [PairedClass.end_handler, trace_end, trace_lease_allocation_end,
      trace_database_query_end, h]

theorem end_handler_histogram (c : PairedClass) (s : State) (p now ts : Nat)
    (h : s.start.lookup (to_u32 p) = some ts) :
    c.histogram (c.end_handler s p now) =
      (c.histogram s).increment (bpf_log2l (u64_sub now ts)) := by
  cases c <;>
    simp [PairedClass.end_handler, PairedClass.histogram, trace_end,
      trace_lease_allocation_end, trace_database_query_end, h]

theorem end_handler_other_histogram (c c' : PairedClass) (s : State) (p now : Nat)
    (hc : c' ≠ c) : c'.histogram (c.end_handler s p now) = c'.histogram s := by
  cases h : s.start.lookup (to_u32 p) with
  | none => rw [end_handler_of_none c s p now h]
  | some ts =>
    cases c <;> cases c' <;>
      first
      | exact absurd rfl hc
      | simp [PairedClass.end_handler, PairedClass.histogram, trace_end,
          trace_lease_allocation_end, trace_database_query_end, h]

theorem end_delta_of_some (s : State) (p now ts : Nat)
    (h : s.start.lookup (to_u32 p) = some ts) :
    end_delta s p now = some (u64_sub now ts) := by
  simp [end_delta, h]

theorem end_delta_of_none (s : State) (p now : Nat)
    (h : s.start.lookup (to_u32 p) = none) : end_delta s p now = none := by
  simp [end_delta, h]

theorem lookup_after_start (c : PairedClass) (s : State) (p t : Nat) :
    (c.start_handler s p t).start.lookup (to_u32 p) = some (to_u64 t) := by
  rw [start_handler_eq]
  exact lookup_update_self _ _ _

theorem histogram_after_start (c c' : PairedClass) (s : State) (p t : Nat) :
    c'.histogram (c.start_handler s p t) = c'.histogram s := by
  cases c <;> cases c' <;> rfl

theorem increment_self (h : BPFHistogram) (i : Nat) : h.increment i i = h i + 1 := by
  simp [BPFHistogram.increment]

theorem increment_other (h : BPFHistogram) (i j : Nat) (hj : j ≠ i) :
    h.increment i j = h j := by
  simp [BPFHistogram.increment, hj]

/-! ## Claims -/

/-- C1: for each paired class, every prior state, every key and all timestamps
`t1 ≤ t2`, the start handler at `t1` directly followed by the end handler of the
same class at `t2` makes the end handler compute the duration `t2 - t1`, feeds
exactly one observation (the bucket of `t2 - t1`) to the histogram of that
class and none to the histogram of another paired class, and consumes the
pending start. -/
theorem start_then_end_observes_elapsed (c : PairedClass) (s : State) (p t1 t2 : Nat)
    (h12 : t1 ≤ t2) (h2 : t2 < U64) :
    end_delta (c.start_handler s p t1) p t2 = some (t2 - t1) ∧
    c.histogram (c.end_handler (c.start_handler s p t1) p t2) =
      (c.histogram s).increment (bpf_log2l (t2 - t1)) ∧
    (∀ c', c' ≠ c →
      c'.histogram (c.end_handler (c.start_handler s p t1) p t2) = c'.histogram s) ∧
    (c.end_handler (c.start_handler s p t1) p t2).start.lookup (to_u32 p) = none := by
  have h1 : t1 < U64 := lt_of_le_of_lt h12 h2
  have hl := lookup_after_start c s p t1
  rw [to_u64_of_lt t1 h1] at hl
  refine ⟨?_, ?_, ?_, ?_⟩
  · rw [end_delta_of_some _ p t2 t1 hl, u64_sub_of_le t1 t2 h12 h2]
  · rw [end_handler_histogram c _ p t2 t1 hl, u64_sub_of_le t1 t2 h12 h2,
      histogram_after_start]
  · intro c' hc
    rw [end_handler_other_histogram c c' _ p t2 hc, histogram_after_start]
  · rw [end_handler_start c _ p t2 t1 hl]
    exact lookup_delete_self _ _

/-- Witness of C1: lease class, key 7, start at 1000, end at 1512, duration 512,
bucket 9. -/
theorem start_then_end_observes_elapsed_witness :
    (1000 ≤ 1512 ∧ 1512 < U64) ∧
    end_delta (trace_lease_allocation State.empty 7 1000) 7 1512 = some 512 ∧
    (trace_lease_allocation_end (trace_lease_allocation State.empty 7 1000) 7 1512
      ).lease_allocation_time = State.empty.lease_allocation_time.increment 9 :=
  ⟨⟨by decide, by decide⟩,
   (start_then_end_observes_elapsed .lease State.empty 7 1000 1512 (by decide) (by decide)).1,
   (start_then_end_observes_elapsed .lease State.empty 7 1000 1512 (by decide) (by decide)).2.1⟩


/-- C2: when an end handler finds a pending start `ts` and so observes the
duration `d = now - ts` (64-bit unsigned), the bucket `b` it increments is
`floor(log2(max(d, 1)))`, that is `2 ^ b ≤ max d 1 < 2 ^ (b + 1)`; the count of
bucket `b` of the class histogram grows by exactly 1 and every other bucket of
that histogram is unchanged.  Durations 0 and 1 land in bucket 0 and duration
512 in bucket 9. -/
theorem end_increments_log2_bucket (c : PairedClass) (s : State) (p now ts : Nat)
    (h : s.start.lookup (to_u32 p) = some ts) :
    end_delta s p now = some (u64_sub now ts) ∧
    2 ^ bpf_log2l (u64_sub now ts) ≤ max (u64_sub now ts) 1 ∧
    max (u64_sub now ts) 1 < 2 ^ (bpf_log2l (u64_sub now ts) + 1) ∧
    bpf_log2l (u64_sub now ts) = Nat.log 2 (max (u64_sub now ts) 1) ∧
    c.histogram (c.end_handler s p now) (bpf_log2l (u64_sub now ts)) =
      c.histogram s (bpf_log2l (u64_sub now ts)) + 1 ∧
    (∀ i, i ≠ bpf_log2l (u64_sub now ts) →
      c.histogram (c.end_handler s p now) i = c.histogram s i) ∧
    bpf_log2l 0 = 0 ∧ bpf_log2l 1 = 0 ∧ bpf_log2l 512 = 9 := by
  obtain ⟨ha, hb⟩ := bpf_log2l_spec (u64_sub now ts) (u64_sub_lt now ts)
  refine ⟨end_delta_of_some s p now ts h, ha, hb, ?_, ?_, ?_, by decide, by decide, by decide⟩
  · symm
    apply Nat.log_eq_of_pow_le_of_lt_pow ha hb
  · rw [end_handler_histogram c s p now ts h, increment_self]
  · intro i hi
    rw [end_handler_histogram c s p now ts h, increment_other _ _ _ hi]

/-- Witness of C2: the packet class with a start pending at 1000 for key 7,
ended at 1512. -/
theorem end_increments_log2_bucket_witness :
    BPFHash.lookup (to_u32 7) (trace_start State.empty 7 1000).start = some 1000 ∧
    (trace_end (trace_start State.empty 7 1000) 7 1512).packet_processing_time
        (bpf_log2l (u64_sub 1512 1000)) =
      (trace_start State.empty 7 1000).packet_processing_time
        (bpf_log2l (u64_sub 1512 1000)) + 1 :=
  ⟨by decide,
   (end_increments_log2_bucket .packet (trace_start State.empty 7 1000) 7 1512 1000
      (by decide)).2.2.2.2.1⟩

/-- C3: for every state and every key that has no pending start, each end
handler, at any timestamp, computes no duration and returns the state it was
given: every bucket of every histogram and every entry of the start map are as
before. -/
theorem end_without_start_is_noop (c : PairedClass) (s : State) (p now : Nat)
    (h : s.start.lookup (to_u32 p) = none) :
    end_delta s p now = none ∧ c.end_handler s p now = s :=
  ⟨end_delta_of_none s p now h, end_handler_of_none c s p now h⟩

/-- Witness of C3: the database end handler for key 7 on the empty state. -/
theorem end_without_start_is_noop_witness :
    BPFHash.lookup (to_u32 7) State.empty.start = none ∧
    trace_database_query_end State.empty 7 1512 = State.empty :=
  ⟨by decide, (end_without_start_is_noop .database State.empty 7 1512 (by decide)).2⟩

theorem u64_sub_right_injective (a b b' : Nat) (hb : b < U64) (hb' : b' < U64)
    (h : u64_sub a b = u64_sub a b') : b = b' := by
  unfold u64_sub at h
  rw [to_u64_of_lt b hb, to_u64_of_lt b' hb'] at h
  have ha := to_u64_lt a
  generalize to_u64 a = x at h ha
  have e1 : (x + (U64 - b)) % U64 = if b ≤ x then x - b else x + U64 - b := by
    split
    · have : x + (U64 - b) = (x - b) + U64 := by omega
      rw [this, Nat.add_mod_right]
      exact Nat.mod_eq_of_lt (by omega)
    · have : x + (U64 - b) = x + U64 - b := by omega
      rw [this]
      exact Nat.mod_eq_of_lt (by omega)
  have e2 : (x + (U64 - b')) % U64 = if b' ≤ x then x - b' else x + U64 - b' := by
    split
    · have : x + (U64 - b') = (x - b') + U64 := by omega
      rw [this, Nat.add_mod_right]
      exact Nat.mod_eq_of_lt (by omega)
    · have : x + (U64 - b') = x + U64 - b' := by omega
      rw [this]
      exact Nat.mod_eq_of_lt (by omega)
  rw [e1, e2] at h
  split at h <;> split at h <;> omega

/-- C4: last write wins.  For every paired class, key and timestamps with
`t3 ≤ t4`, a start at `t1`, a second start at `t3` and then the end at `t4`
leave the same state as the second start and the end alone: the end handler
computes the duration `t4 - t3`, makes exactly one observation, in the bucket of
`t4 - t3`, and when `t1` differs from `t3` the duration is not the one measured
from `t1`. -/
theorem second_start_overwrites_first (c : PairedClass) (s : State) (p t1 t3 t4 : Nat)
    (h34 : t3 ≤ t4) (h4 : t4 < U64) :
    end_delta (c.start_handler (c.start_handler s p t1) p t3) p t4 = some (t4 - t3) ∧
    c.histogram (c.end_handler (c.start_handler (c.start_handler s p t1) p t3) p t4) =
      (c.histogram s).increment (bpf_log2l (t4 - t3)) ∧
    c.end_handler (c.start_handler (c.start_handler s p t1) p t3) p t4 =
      c.end_handler (c.start_handler s p t3) p t4 ∧
    (t1 < U64 → t1 ≠ t3 →
      end_delta (c.start_handler (c.start_handler s p t1) p t3) p t4 ≠
        some (u64_sub t4 t1)) := by
  have h3 : t3 < U64 := lt_of_le_of_lt h34 h4
  have hl := lookup_after_start c (c.start_handler s p t1) p t3
  rw [to_u64_of_lt t3 h3] at hl
  have hd : end_delta (c.start_handler (c.start_handler s p t1) p t3) p t4 =
      some (t4 - t3) := by
    rw [end_delta_of_some _ p t4 t3 hl, u64_sub_of_le t3 t4 h34 h4]
  refine ⟨hd, ?_, ?_, ?_⟩
  · rw [end_handler_histogram c _ p t4 t3 hl, u64_sub_of_le t3 t4 h34 h4,
      histogram_after_start, histogram_after_start]
  · have e : c.start_handler (c.start_handler s p t1) p t3 = c.start_handler s p t3 := by
      rw [start_handler_eq, start_handler_eq, start_handler_eq]
      simp [update_update]
    rw [e]
  · intro h1 h13 hcon
    rw [hd, ← u64_sub_of_le t3 t4 h34 h4] at hcon
    exact h13 (u64_sub_right_injective t4 t1 t3 h1 h3 (Option.some.inj hcon).symm)

/-- Witness of C4: packet class, key 7, starts at 1000 and 1256, end at 1512:
the duration is 256. -/
theorem second_start_overwrites_first_witness :
    (1256 ≤ 1512 ∧ 1512 < U64) ∧
    end_delta (trace_start (trace_start State.empty 7 1000) 7 1256) 7 1512 = some 256 :=
  ⟨⟨by decide, by decide⟩,
   (second_start_overwrites_first .packet State.empty 7 1000 1256 1512
      (by decide) (by decide)).1⟩


/-- Counterexample to C5: the start map is keyed by the pid alone.  With a
packet start pending for key 7 since 1000, a lease start at 1200 overwrites it;
a lease end at 1512 consumes it and records an observation in the lease
histogram (bucket 9); the packet end at 2000 then observes nothing (its own
duration 1000 would fall in bucket 9). -/
theorem classes_share_start_map_counterexample :
    (trace_lease_allocation (trace_start State.empty 7 1000) 7 1200).start.lookup (to_u32 7)
      = some 1200 ∧
    (trace_lease_allocation_end (trace_start State.empty 7 1000) 7 1512).start.lookup
      (to_u32 7) = none ∧
    (trace_lease_allocation_end (trace_start State.empty 7 1000) 7 1512
      ).lease_allocation_time 9 = 1 ∧
    (trace_end (trace_lease_allocation_end (trace_start State.empty 7 1000) 7 1512) 7 2000
      ).packet_processing_time 9 = 0 := by
  decide

/-- C5, amended: the three paired classes share one start map keyed by the key
alone.  For every key and any two paired classes `A` and `B`: a start of `B`
overwrites the pending start of `A`; an end of `B` at `t2 ≥ t1` consumes the
start `A` recorded at `t1`, makes one observation of duration `t2 - t1` in the
histogram of `B` and removes the entry; the later end of `A` then makes no
observation and changes nothing. -/
theorem classes_share_start_map (A B : PairedClass) (s : State) (p t1 t2 t3 : Nat)
    (h12 : t1 ≤ t2) (h2 : t2 < U64) :
    B.start_handler (A.start_handler s p t1) p t2 = B.start_handler s p t2 ∧
    (B.start_handler (A.start_handler s p t1) p t2).start.lookup (to_u32 p) = some t2 ∧
    end_delta (A.start_handler s p t1) p t2 = some (t2 - t1) ∧
    B.histogram (B.end_handler (A.start_handler s p t1) p t2) =
      (B.histogram s).increment (bpf_log2l (t2 - t1)) ∧
    (B.end_handler (A.start_handler s p t1) p t2).start.lookup (to_u32 p) = none ∧
    end_delta (B.end_handler (A.start_handler s p t1) p t2) p t3 = none ∧
    A.end_handler (B.end_handler (A.start_handler s p t1) p t2) p t3 =
      B.end_handler (A.start_handler s p t1) p t2 := by
  have h1 : t1 < U64 := lt_of_le_of_lt h12 h2
  have hl := lookup_after_start A s p t1
  rw [to_u64_of_lt t1 h1] at hl
  have hnone : (B.end_handler (A.start_handler s p t1) p t2).start.lookup (to_u32 p)
      = none := by
    rw [end_handler_start B _ p t2 t1 hl]
    exact lookup_delete_self _ _
  refine ⟨?_, ?_, ?_, ?_, hnone, end_delta_of_none _ p t3 hnone,
    end_handler_of_none A _ p t3 hnone⟩
  · rw [start_handler_eq, start_handler_eq, start_handler_eq]
    simp [update_update]
  · have := lookup_after_start B (A.start_handler s p t1) p t2
    rwa [to_u64_of_lt t2 h2] at this
  · rw [end_delta_of_some _ p t2 t1 hl, u64_sub_of_le t1 t2 h12 h2]
  · rw [end_handler_histogram B _ p t2 t1 hl, u64_sub_of_le t1 t2 h12 h2,
      histogram_after_start]

/-- Witness of the amended C5: packet start at 1000 and lease end at 1512 for
key 7, then a packet end at 2000. -/
theorem classes_share_start_map_witness :
    (1000 ≤ 1512 ∧ 1512 < U64) ∧
    end_delta (trace_start State.empty 7 1000) 7 1512 = some 512 ∧
    trace_end (trace_lease_allocation_end (trace_start State.empty 7 1000) 7 1512) 7 2000 =
      trace_lease_allocation_end (trace_start State.empty 7 1000) 7 1512 :=
  ⟨⟨by decide, by decide⟩,
   (classes_share_start_map .packet .lease State.empty 7 1000 1512 2000
      (by decide) (by decide)).2.2.1,
   (classes_share_start_map .packet .lease State.empty 7 1000 1512 2000
      (by decide) (by decide)).2.2.2.2.2.2⟩

theorem bpf_log2l_eq_zero_iff (d : Nat) (hd : d < U64) : bpf_log2l d = 0 ↔ d < 2 := by
  obtain ⟨ha, hb⟩ := bpf_log2l_spec d hd
  constructor
  · intro h0
    rw [h0] at hb
    have : d ≤ max d 1 := le_max_left d 1
    simp at hb
    omega
  · intro h2
    have hm : max d 1 = 1 := by
      rcases Nat.lt_or_ge d 1 with h | h
      · exact max_eq_right (by omega)
      · have : d = 1 := by omega
        subst this; rfl
    rw [hm] at ha
    by_contra hne
    have : 2 ^ 1 ≤ 2 ^ bpf_log2l d := Nat.pow_le_pow_right (by decide) (by omega)
    omega

/-- Counterexample to C6: with a packet start stored at 1000 for key 7, the end
handler at 999 leaves bucket 0 at its count 0 and increments bucket 63: the
duration it computes is `2 ^ 64 - 1`. -/
theorem negative_duration_counterexample :
    end_delta (trace_start State.empty 7 1000) 7 999 = some (2 ^ 64 - 1) ∧
    (trace_end (trace_start State.empty 7 1000) 7 999).packet_processing_time 0 = 0 ∧
    (trace_end (trace_start State.empty 7 1000) 7 999).packet_processing_time 63 = 1 := by
  decide

/-- C6, amended: a negative duration is not clamped, it wraps.  For every paired
class and key whose stored start timestamp is `t1`, the end handler at
`t2 < t1` computes the 64-bit unsigned difference `d = t2 + 2 ^ 64 - t1`,
increments bucket `floor(log2(d))` of the class histogram by exactly 1 and
changes no other bucket; that bucket is bucket 0 only when
`t1 = t2 + (2 ^ 64 - 1)`.  The handler is total: no error occurs. -/
theorem negative_duration_wraps (c : PairedClass) (s : State) (p t1 t2 : Nat)
    (h : s.start.lookup (to_u32 p) = some t1) (h1 : t1 < U64) (h21 : t2 < t1) :
    end_delta s p t2 = some (t2 + U64 - t1) ∧
    2 ^ bpf_log2l (t2 + U64 - t1) ≤ t2 + U64 - t1 ∧
    t2 + U64 - t1 < 2 ^ (bpf_log2l (t2 + U64 - t1) + 1) ∧
    c.histogram (c.end_handler s p t2) (bpf_log2l (t2 + U64 - t1)) =
      c.histogram s (bpf_log2l (t2 + U64 - t1)) + 1 ∧
    (∀ i, i ≠ bpf_log2l (t2 + U64 - t1) →
      c.histogram (c.end_handler s p t2) i = c.histogram s i) ∧
    (bpf_log2l (t2 + U64 - t1) = 0 ↔ t1 = t2 + (U64 - 1)) := by
  have hw := u64_sub_of_lt t1 t2 h21 h1
  have hlt : t2 + U64 - t1 < U64 := by omega
  have hpos : 1 ≤ t2 + U64 - t1 := by omega
  obtain ⟨ha, hb⟩ := bpf_log2l_spec (t2 + U64 - t1) hlt
  rw [max_eq_left hpos] at ha hb
  refine ⟨?_, ha, hb, ?_, ?_, ?_⟩
  · rw [end_delta_of_some s p t2 t1 h, hw]
  · rw [end_handler_histogram c s p t2 t1 h, hw, increment_self]
  · intro i hi
    rw [end_handler_histogram c s p t2 t1 h, hw, increment_other _ _ _ hi]
  · rw [bpf_log2l_eq_zero_iff _ hlt]
    have : (1 : Nat) ≤ U64 := by decide
    omega

/-- Witness of the amended C6: packet class, key 7, start stored at 1000, end at
999. -/
theorem negative_duration_wraps_witness :
    (BPFHash.lookup (to_u32 7) (trace_start State.empty 7 1000).start = some 1000 ∧
      1000 < U64 ∧ 999 < 1000) ∧
    end_delta (trace_start State.empty 7 1000) 7 999 = some (999 + U64 - 1000) :=
  ⟨⟨by decide, by decide, by decide⟩,
   (negative_duration_wraps .packet (trace_start State.empty 7 1000) 7 1000 999
      (by decide) (by decide) (by decide)).1⟩


theorem iterate_packet_drop (s : State) (M : Nat) :
    ((trace_packet_drop^[M]) s).packet_drop_rate 1 = s.packet_drop_rate 1 + M ∧
    ∀ i, i ≠ 1 → ((trace_packet_drop^[M]) s).packet_drop_rate i = s.packet_drop_rate i := by
  induction M with
  | zero => simp
  | succ n ih =>
    rw [Function.iterate_succ_apply']
    refine ⟨?_, fun i hi => ?_⟩
    · simp only [trace_packet_drop, increment_self, ih.1]; omega
    · simp only [trace_packet_drop, increment_other _ _ _ hi, ih.2 i hi]

theorem iterate_memory_usage (s : State) (M : Nat) :
    ((trace_memory_usage^[M]) s).memory_usage 1 = s.memory_usage 1 + M ∧
    ∀ i, i ≠ 1 → ((trace_memory_usage^[M]) s).memory_usage i = s.memory_usage i := by
  induction M with
  | zero => simp
  | succ n ih =>
    rw [Function.iterate_succ_apply']
    refine ⟨?_, fun i hi => ?_⟩
    · simp only [trace_memory_usage, increment_self, ih.1]; omega
    · simp only [trace_memory_usage, increment_other _ _ _ hi, ih.2 i hi]

theorem iterate_network_traffic (s : State) (M : Nat) :
    ((trace_network_traffic^[M]) s).network_traffic 1 = s.network_traffic 1 + M ∧
    ∀ i, i ≠ 1 →
      ((trace_network_traffic^[M]) s).network_traffic i = s.network_traffic i := by
  induction M with
  | zero => simp
  | succ n ih =>
    rw [Function.iterate_succ_apply']
    refine ⟨?_, fun i hi => ?_⟩
    · simp only [trace_network_traffic, increment_self, ih.1]; omega
    · simp only [trace_network_traffic, increment_other _ _ _ hi, ih.2 i hi]

theorem iterate_error_rates (s : State) (M : Nat) :
    ((trace_error_rates^[M]) s).error_rates 1 = s.error_rates 1 + M ∧
    ∀ i, i ≠ 1 → ((trace_error_rates^[M]) s).error_rates i = s.error_rates i := by
  induction M with
  | zero => simp
  | succ n ih =>
    rw [Function.iterate_succ_apply']
    refine ⟨?_, fun i hi => ?_⟩
    · simp only [trace_error_rates, increment_self, ih.1]; omega
    · simp only [trace_error_rates, increment_other _ _ _ hi, ih.2 i hi]

/-- C7: for every prior state and every `M`, a batch of `M` invocations of an
occurrence handler whose argument is 1 (`trace_packet_drop`,
`trace_memory_usage`, `trace_network_traffic`, `trace_error_rates`) raises the
count the handler maintains, slot 1 of its table, by exactly `M` and leaves the
other slots of the table as they were; 5 invocations of `trace_packet_drop` from
the empty state make the drop count 5. -/
theorem occurrence_batch_adds_exactly (s : State) (M : Nat) :
    (((trace_packet_drop^[M]) s).packet_drop_rate 1 = s.packet_drop_rate 1 + M ∧
      ∀ i, i ≠ 1 → ((trace_packet_drop^[M]) s).packet_drop_rate i = s.packet_drop_rate i) ∧
    (((trace_memory_usage^[M]) s).memory_usage 1 = s.memory_usage 1 + M ∧
      ∀ i, i ≠ 1 → ((trace_memory_usage^[M]) s).memory_usage i = s.memory_usage i) ∧
    (((trace_network_traffic^[M]) s).network_traffic 1 = s.network_traffic 1 + M ∧
      ∀ i, i ≠ 1 →
        ((trace_network_traffic^[M]) s).network_traffic i = s.network_traffic i) ∧
    (((trace_error_rates^[M]) s).error_rates 1 = s.error_rates 1 + M ∧
      ∀ i, i ≠ 1 → ((trace_error_rates^[M]) s).error_rates i = s.error_rates i) ∧
    ((trace_packet_drop^[5]) State.empty).packet_drop_rate 1 = 5 :=
  ⟨iterate_packet_drop s M, iterate_memory_usage s M, iterate_network_traffic s M,
    iterate_error_rates s M, by decide⟩

theorem tables_le_refl (s : State) : s.tables_le s :=
  ⟨fun _ => le_rfl, fun _ => le_rfl, fun _ => le_rfl, fun _ => le_rfl,
    fun _ => le_rfl, fun _ => le_rfl, fun _ => le_rfl, fun _ => le_rfl⟩

theorem tables_le_trans {a b c : State} (h1 : a.tables_le b) (h2 : b.tables_le c) :
    a.tables_le c := by
  obtain ⟨a1, a2, a3, a4, a5, a6, a7, a8⟩ := h1
  obtain ⟨b1, b2, b3, b4, b5, b6, b7, b8⟩ := h2
  exact ⟨fun i => le_trans (a1 i) (b1 i), fun i => le_trans (a2 i) (b2 i),
    fun i => le_trans (a3 i) (b3 i), fun i => le_trans (a4 i) (b4 i),
    fun i => le_trans (a5 i) (b5 i), fun i => le_trans (a6 i) (b6 i),
    fun i => le_trans (a7 i) (b7 i), fun i => le_trans (a8 i) (b8 i)⟩

theorem le_increment (h : BPFHistogram) (i j : Nat) : h j ≤ h.increment i j := by
  unfold BPFHistogram.increment
  split <;> omega

theorem le_increment_int (h : BPFHistogram) (key : Int) (j : Nat) :
    h j ≤ h.increment_int key j := by
  cases key with
  | ofNat i => exact le_increment h i j
  | negSucc _ => exact le_rfl

theorem end_handler_tables_le (c : PairedClass) (s : State) (p t : Nat) :
    s.tables_le (c.end_handler s p t) := by
  cases h : s.start.lookup (to_u32 p) with
  | none =>
    rw [end_handler_of_none c s p t h]
    exact tables_le_refl s
  | some ts =>
    cases c
    · have e : PairedClass.packet.end_handler s p t =
          { s with
            packet_processing_time :=
              s.packet_processing_time.increment (bpf_log2l (u64_sub t ts))
            start := s.start.delete (to_u32 p) } := by
        simp [PairedClass.end_handler, trace_end, h]
      rw [e]
      exact ⟨fun i => le_increment _ _ i, fun _ => le_rfl, fun _ => le_rfl, fun _ => le_rfl,
        fun _ => le_rfl, fun _ => le_rfl, fun _ => le_rfl, fun _ => le_rfl⟩
    · have e : PairedClass.lease.end_handler s p t =
          { s with
            lease_allocation_time :=
              s.lease_allocation_time.increment (bpf_log2l (u64_sub t ts))
            start := s.start.delete (to_u32 p) } := by
        simp [PairedClass.end_handler, trace_lease_allocation_end, h]
      rw [e]
      exact ⟨fun _ => le_rfl, fun _ => le_rfl, fun _ => le_rfl, fun _ => le_rfl,
        fun _ => le_rfl, fun _ => le_rfl, fun i => le_increment _ _ i, fun _ => le_rfl⟩
    · have e : PairedClass.database.end_handler s p t =
          { s with
            database_query_performance :=
              s.database_query_performance.increment (bpf_log2l (u64_sub t ts))
            start := s.start.delete (to_u32 p) } := by
        simp [PairedClass.end_handler, trace_database_query_end, h]
      rw [e]
      exact ⟨fun _ => le_rfl, fun _ => le_rfl, fun _ => le_rfl, fun _ => le_rfl,
        fun _ => le_rfl, fun _ => le_rfl, fun _ => le_rfl, fun i => le_increment _ _ i⟩

theorem step_tables_le (s : State) (e : Event) : s.tables_le (step s e) := by
  cases e with
  | start p t => exact tables_le_refl s
  | lease_allocation p t => exact tables_le_refl s
  | database_query p t => exact tables_le_refl s
  | finish p t => exact end_handler_tables_le .packet s p t
  | lease_allocation_end p t => exact end_handler_tables_le .lease s p t
  | database_query_end p t => exact end_handler_tables_le .database s p t
  | packet_drop =>
    exact ⟨fun _ => le_rfl, fun i => le_increment _ _ i, fun _ => le_rfl, fun _ => le_rfl,
      fun _ => le_rfl, fun _ => le_rfl, fun _ => le_rfl, fun _ => le_rfl⟩
  | cpu_usage_sample c =>
    exact ⟨fun _ => le_rfl, fun _ => le_rfl, fun i => le_increment_int _ _ i, fun _ => le_rfl,
      fun _ => le_rfl, fun _ => le_rfl, fun _ => le_rfl, fun _ => le_rfl⟩
  | memory_usage_sample =>
    exact ⟨fun _ => le_rfl, fun _ => le_rfl, fun _ => le_rfl, fun i => le_increment _ _ i,
      fun _ => le_rfl, fun _ => le_rfl, fun _ => le_rfl, fun _ => le_rfl⟩
  | network_traffic_sample =>
    exact ⟨fun _ => le_rfl, fun _ => le_rfl, fun _ => le_rfl, fun _ => le_rfl,
      fun i => le_increment _ _ i, fun _ => le_rfl, fun _ => le_rfl, fun _ => le_rfl⟩
  | error_rates_sample =>
    exact ⟨fun _ => le_rfl, fun _ => le_rfl, fun _ => le_rfl, fun _ => le_rfl,
      fun _ => le_rfl, fun i => le_increment _ _ i, fun _ => le_rfl, fun _ => le_rfl⟩

theorem run_tables_le (es : List Event) : ∀ s : State, s.tables_le (run s es) := by
  induction es with
  | nil => exact fun s => tables_le_refl s
  | cons e es ih =>
    intro s
    show s.tables_le (run (step s e) es)
    exact tables_le_trans (step_tables_le s e) (ih (step s e))

/-- C8: accumulate only.  For every state and every one of the eleven handlers,
with any key, timestamp and CPU id, every bucket of each of the eight tables is
afterwards at least what it was before; hence after any finite sequence of
handler invocations, and between any two points of such a sequence, no bucket
or counter has decreased or been reset. -/
theorem tables_never_decrease :
    (∀ (s : State) (e : Event), s.tables_le (step s e)) ∧
    (∀ (s : State) (es : List Event), s.tables_le (run s es)) ∧
    (∀ (s : State) (es es' : List Event), (run s es).tables_le (run s (es ++ es'))) := by
  refine ⟨step_tables_le, fun s es => run_tables_le es s, fun s es es' => ?_⟩
  have : run s (es ++ es') = run (run s es) es' := by
    simp [run, List.foldl_append]
  rw [this]
  exact run_tables_le es' _


theorem run_ends_of_none (c : PairedClass) (p : Nat) (times : List Nat) :
    ∀ s : State, s.start.lookup (to_u32 p) = none → run_ends c s p times = s := by
  induction times with
  | nil => exact fun s _ => rfl
  | cons t times ih =>
    intro s h
    show run_ends c (c.end_handler s p t) p times = s
    rw [end_handler_of_none c s p t h]
    exact ih s h

theorem lookup_after_end (c : PairedClass) (s : State) (p now : Nat) :
    (c.end_handler s p now).start.lookup (to_u32 p) = none := by
  cases h : s.start.lookup (to_u32 p) with
  | none => rw [end_handler_of_none c s p now h]; exact h
  | some ts =>
    rw [end_handler_start c s p now ts h]
    exact lookup_delete_self _ _

/-- C9: a matched end consumes the pending start.  For every paired class and
key with a pending start `ts`, after the end handler of the class the start map
has no entry for the key; a second end for the key computes no duration and
changes nothing; and any number `n ≥ 1` of ends (at the times `now :: more`)
leaves the state of the first end, with exactly one observation in the class
histogram.  In particular this holds after one start. -/
theorem matched_end_consumes_start (c : PairedClass) (s : State) (p ts now now' : Nat)
    (more : List Nat) (h : s.start.lookup (to_u32 p) = some ts) :
    (c.end_handler s p now).start.lookup (to_u32 p) = none ∧
    end_delta (c.end_handler s p now) p now' = none ∧
    c.end_handler (c.end_handler s p now) p now' = c.end_handler s p now ∧
    run_ends c s p (now :: more) = c.end_handler s p now ∧
    c.histogram (run_ends c s p (now :: more)) =
      (c.histogram s).increment (bpf_log2l (u64_sub now ts)) ∧
    (∀ (s0 : State) (t1 : Nat),
      run_ends c (c.start_handler s0 p t1) p (now :: more) =
        c.end_handler (c.start_handler s0 p t1) p now ∧
      c.histogram (run_ends c (c.start_handler s0 p t1) p (now :: more)) =
        (c.histogram s0).increment (bpf_log2l (u64_sub now (to_u64 t1)))) := by
  have hn := lookup_after_end c s p now
  have hr : ∀ s' : State, run_ends c s' p (now :: more) = c.end_handler s' p now :=
    fun s' => run_ends_of_none c p more _ (lookup_after_end c s' p now)
  refine ⟨hn, end_delta_of_none _ p now' hn, end_handler_of_none c _ p now' hn, hr s, ?_, ?_⟩
  · rw [hr s, end_handler_histogram c s p now ts h]
  · intro s0 t1
    refine ⟨hr _, ?_⟩
    rw [hr _, end_handler_histogram c _ p now _ (lookup_after_start c s0 p t1),
      histogram_after_start]

/-- Witness of C9: lease class, key 7, a start pending since 1000, ends at 1512,
1600 and 1700. -/
theorem matched_end_consumes_start_witness :
    BPFHash.lookup (to_u32 7) (trace_lease_allocation State.empty 7 1000).start = some 1000 ∧
    run_ends .lease (trace_lease_allocation State.empty 7 1000) 7 [1512, 1600, 1700] =
      trace_lease_allocation_end (trace_lease_allocation State.empty 7 1000) 7 1512 :=
  ⟨by decide,
   (matched_end_consumes_start .lease (trace_lease_allocation State.empty 7 1000) 7 1000
      1512 1600 [1600, 1700] (by decide)).2.2.2.1⟩

/-- C10: a start mutates the start map only, and only at its own key.  For every
state, key and timestamp `t` (a `u64`), after any start handler the entry of the
key holds `t`, the pending start of every other key is unchanged, and every
bucket of all eight histogram tables is unchanged. -/
theorem start_touches_only_its_key (c : PairedClass) (s : State) (p t : Nat)
    (ht : t < U64) :
    (c.start_handler s p t).start.lookup (to_u32 p) = some t ∧
    (∀ k', k' ≠ to_u32 p →
      (c.start_handler s p t).start.lookup k' = s.start.lookup k') ∧
    s.tables_eq (c.start_handler s p t) := by
  refine ⟨?_, ?_, ?_⟩
  · have := lookup_after_start c s p t
    rwa [to_u64_of_lt t ht] at this
  · intro k' hk
    rw [start_handler_eq]
    exact lookup_update_other _ _ _ _ hk
  · rw [start_handler_eq]
    exact ⟨rfl, rfl, rfl, rfl, rfl, rfl, rfl, rfl⟩

/-- Witness of C10: the database start handler for key 7 at time 1000 on the
empty state. -/
theorem start_touches_only_its_key_witness :
    1000 < U64 ∧
    (trace_database_query State.empty 7 1000).start.lookup (to_u32 7) = some 1000 :=
  ⟨by decide, (start_touches_only_its_key .database State.empty 7 1000 (by decide)).1⟩


/-- C13: the source repeats one pattern per class.  The three start handlers
are one and the same function; each end handler is the single `end_pattern`
applied to its own table; each of the four occurrence handlers with argument 1
is the single `occurrence_pattern` applied to its own table. -/
theorem handlers_repeat_one_pattern :
    (trace_start = trace_lease_allocation ∧ trace_lease_allocation = trace_database_query ∧
      trace_start = start_pattern) ∧
    (trace_end = end_pattern TableRef.packet_processing_time ∧
      trace_lease_allocation_end = end_pattern TableRef.lease_allocation_time ∧
      trace_database_query_end = end_pattern TableRef.database_query_performance) ∧
    (trace_packet_drop = occurrence_pattern TableRef.packet_drop_rate ∧
      trace_memory_usage = occurrence_pattern TableRef.memory_usage ∧
      trace_network_traffic = occurrence_pattern TableRef.network_traffic ∧
      trace_error_rates = occurrence_pattern TableRef.error_rates) := by
  refine ⟨⟨rfl, rfl, rfl⟩, ⟨?_, ?_, ?_⟩, ⟨rfl, rfl, rfl, rfl⟩⟩
  · funext s p now
    cases h : s.start.lookup (to_u32 p) <;>
      simp [trace_end, end_pattern, h, TableRef.packet_processing_time]
  · funext s p now
    cases h : s.start.lookup (to_u32 p) <;>
      simp [trace_lease_allocation_end, end_pattern, h, TableRef.lease_allocation_time]
  · funext s p now
    cases h : s.start.lookup (to_u32 p) <;>
      simp [trace_database_query_end, end_pattern, h, TableRef.database_query_performance]


/-- Counterexample to C14: the key is the low half of the helper result, not the
tgid half.  Two invocations of one process (tgid 5) on threads 7 and 8 have the
keys 7 and 8 and are not correlated: the end computes no duration.  Two
invocations of different processes (tgid 5 and 6) whose low halves are both 7
share the key 7 and are correlated. -/
theorem key_is_not_tgid_counterexample :
    tgid_half (5 * U32 + 7) = 5 ∧ tgid_half (5 * U32 + 8) = 5 ∧
    to_u32 (5 * U32 + 7) = 7 ∧ to_u32 (5 * U32 + 8) = 8 ∧
    end_delta (trace_start State.empty (5 * U32 + 7) 1000) (5 * U32 + 8) 1512 = none ∧
    tgid_half (6 * U32 + 7) = 6 ∧
    end_delta (trace_start State.empty (5 * U32 + 7) 1000) (6 * U32 + 7) 1512 = some 512 := by
  decide

/-- C14, amended: the key under which every start handler stores, and every end
handler looks up, the pending start is the low 32 bits of the helper result,
the pid half; the tgid half is discarded.  An end is correlated with a
preceding start exactly when their pid halves agree: then it measures from that
start, and otherwise the start has no influence on what the end finds. -/
theorem key_is_pid_half (c : PairedClass) (s : State) (v v' t now : Nat) :
    to_u32 v = pid_half v ∧
    (∀ hi lo, lo < U32 → to_u32 (hi * U32 + lo) = lo) ∧
    (c.start_handler s v t).start.lookup (pid_half v) = some (to_u64 t) ∧
    (pid_half v' = pid_half v →
      end_delta (c.start_handler s v t) v' now = some (u64_sub now (to_u64 t))) ∧
    (pid_half v' ≠ pid_half v →
      end_delta (c.start_handler s v t) v' now = end_delta s v' now) := by
  refine ⟨rfl, ?_, lookup_after_start c s v t, ?_, ?_⟩
  · intro hi lo hlo
    unfold to_u32
    rw [Nat.mul_add_mod_of_lt hlo]
  · intro h
    have hl := lookup_after_start c s v t
    have hk : to_u32 v' = to_u32 v := h
    rw [← hk] at hl
    exact end_delta_of_some _ v' now _ hl
  · intro h
    have hk : to_u32 v' ≠ to_u32 v := h
    unfold end_delta
    rw [start_handler_eq]
    simp only []
    rw [lookup_update_other _ _ _ _ hk]

/-- Witness of the amended C14: helper values `5 * 2 ^ 32 + 7` and
`6 * 2 ^ 32 + 7` have the same pid half, and the end of the second measures
from the start of the first. -/
theorem key_is_pid_half_witness :
    pid_half (6 * U32 + 7) = pid_half (5 * U32 + 7) ∧
    end_delta (trace_start State.empty (5 * U32 + 7) 1000) (6 * U32 + 7) 1512 =
      some (u64_sub 1512 (to_u64 1000)) :=
  ⟨by decide,
   (key_is_pid_half .packet State.empty (5 * U32 + 7) (6 * U32 + 7) 1000 1512).2.2.2.1
      (by decide)⟩

/-- C15: frame of the end and occurrence handlers.  Each end handler changes
nothing except the histogram of its own class and the start map, where the
pending start of every key other than its own is unchanged; each of the five
occurrence handlers changes nothing except its own table. -/
theorem end_and_occurrence_frame (s : State) (p now cpu : Nat) :
    (trace_end s p now =
        { s with
          start := (trace_end s p now).start
          packet_processing_time := (trace_end s p now).packet_processing_time } ∧
      trace_lease_allocation_end s p now =
        { s with
          start := (trace_lease_allocation_end s p now).start
          lease_allocation_time := (trace_lease_allocation_end s p now).lease_allocation_time } ∧
      trace_database_query_end s p now =
        { s with
          start := (trace_database_query_end s p now).start
          database_query_performance :=
            (trace_database_query_end s p now).database_query_performance }) ∧
    (∀ (c : PairedClass) (k' : Nat), k' ≠ to_u32 p →
      (c.end_handler s p now).start.lookup k' = s.start.lookup k') ∧
    (trace_packet_drop s =
        { s with packet_drop_rate := (trace_packet_drop s).packet_drop_rate } ∧
      trace_cpu_usage s cpu = { s with cpu_usage := (trace_cpu_usage s cpu).cpu_usage } ∧
      trace_memory_usage s = { s with memory_usage := (trace_memory_usage s).memory_usage } ∧
      trace_network_traffic s =
        { s with network_traffic := (trace_network_traffic s).network_traffic } ∧
      trace_error_rates s = { s with error_rates := (trace_error_rates s).error_rates }) := by
  refine ⟨⟨?_, ?_, ?_⟩, ?_, ⟨rfl, rfl, rfl, rfl, rfl⟩⟩
  · cases h : s.start.lookup (to_u32 p) <;> simp [trace_end, h]
  · cases h : s.start.lookup (to_u32 p) <;> simp [trace_lease_allocation_end, h]
  · cases h : s.start.lookup (to_u32 p) <;> simp [trace_database_query_end, h]
  · intro c k' hk
    cases h : s.start.lookup (to_u32 p) with
    | none => rw [end_handler_of_none c s p now h]
    | some ts =>
      rw [end_handler_start c s p now ts h]
      exact lookup_delete_other _ _ _ hk


/-! ## Lemmas on runs -/

theorem lookup_start_handler (c : PairedClass) (s : State) (p t k : Nat) :
    (c.start_handler s p t).start.lookup k =
      if k = to_u32 p then some (to_u64 t) else s.start.lookup k := by
  by_cases h : k = to_u32 p
  · rw [if_pos h, h]
    exact lookup_after_start c s p t
  · rw [if_neg h, start_handler_eq]
    exact lookup_update_other _ _ _ _ h

theorem lookup_end_handler (c : PairedClass) (s : State) (p t k : Nat) :
    (c.end_handler s p t).start.lookup k =
      if k = to_u32 p then none else s.start.lookup k := by
  by_cases h : k = to_u32 p
  · rw [if_pos h, h]
    exact lookup_after_end c s p t
  · rw [if_neg h]
    cases hl : s.start.lookup (to_u32 p) with
    | none => rw [end_handler_of_none c s p t hl]
    | some ts =>
      rw [end_handler_start c s p t ts hl]
      exact lookup_delete_other _ _ _ h

theorem step_start_event (c : PairedClass) (s : State) (p t : Nat) :
    step s (c.start_event p t) = c.start_handler s p t := by
  cases c <;> rfl

theorem step_end_event (c : PairedClass) (s : State) (p t : Nat) :
    step s (c.end_event p t) = c.end_handler s p t := by
  cases c <;> rfl

theorem key_start_event (c : PairedClass) (p t : Nat) :
    (c.start_event p t).key = some (to_u32 p) := by
  cases c <;> rfl

theorem key_end_event (c : PairedClass) (p t : Nat) :
    (c.end_event p t).key = some (to_u32 p) := by
  cases c <;> rfl

theorem observation_start_event (c : PairedClass) (s : State) (p t : Nat) :
    (c.start_event p t).observation s = none := by
  cases c <;> rfl

theorem observation_end_event (c : PairedClass) (s : State) (p t : Nat) :
    (c.end_event p t).observation s = (end_delta s p t).map fun d => (c, to_u32 p, d) := by
  cases c <;> rfl

theorem event_cases (e : Event) :
    (∃ c p t, e = PairedClass.start_event c p t) ∨
    (∃ c p t, e = PairedClass.end_event c p t) ∨
    (e.key = none ∧ ∀ s, (step s e).start = s.start ∧ e.observation s = none) := by
  cases e with
  | start p t => exact Or.inl ⟨.packet, p, t, rfl⟩
  | lease_allocation p t => exact Or.inl ⟨.lease, p, t, rfl⟩
  | database_query p t => exact Or.inl ⟨.database, p, t, rfl⟩
  | finish p t => exact Or.inr (Or.inl ⟨.packet, p, t, rfl⟩)
  | lease_allocation_end p t => exact Or.inr (Or.inl ⟨.lease, p, t, rfl⟩)
  | database_query_end p t => exact Or.inr (Or.inl ⟨.database, p, t, rfl⟩)
  | packet_drop => exact Or.inr (Or.inr ⟨rfl, fun _ => ⟨rfl, rfl⟩⟩)
  | cpu_usage_sample c => exact Or.inr (Or.inr ⟨rfl, fun _ => ⟨rfl, rfl⟩⟩)
  | memory_usage_sample => exact Or.inr (Or.inr ⟨rfl, fun _ => ⟨rfl, rfl⟩⟩)
  | network_traffic_sample => exact Or.inr (Or.inr ⟨rfl, fun _ => ⟨rfl, rfl⟩⟩)
  | error_rates_sample => exact Or.inr (Or.inr ⟨rfl, fun _ => ⟨rfl, rfl⟩⟩)

theorem lookup_step_other (e : Event) (s : State) (k : Nat) (hk : e.key ≠ some k) :
    (step s e).start.lookup k = s.start.lookup k := by
  rcases event_cases e with ⟨c, p, t, rfl⟩ | ⟨c, p, t, rfl⟩ | ⟨_, h⟩
  · rw [key_start_event] at hk
    have hne : k ≠ to_u32 p := fun h => hk (by rw [h])
    rw [step_start_event, lookup_start_handler, if_neg hne]
  · rw [key_end_event] at hk
    have hne : k ≠ to_u32 p := fun h => hk (by rw [h])
    rw [step_end_event, lookup_end_handler, if_neg hne]
  · rw [(h s).1]

theorem step_agree (k : Nat) (e : Event) (s1 s2 : State)
    (hag : ∀ k', k' ≠ k → s1.start.lookup k' = s2.start.lookup k')
    (hk : e.key ≠ some k) :
    (∀ k', k' ≠ k → (step s1 e).start.lookup k' = (step s2 e).start.lookup k') ∧
    e.observation s1 = e.observation s2 := by
  rcases event_cases e with ⟨c, p, t, rfl⟩ | ⟨c, p, t, rfl⟩ | ⟨_, h⟩
  · refine ⟨fun k' hk' => ?_, ?_⟩
    · rw [step_start_event, step_start_event, lookup_start_handler, lookup_start_handler,
        hag k' hk']
    · rw [observation_start_event, observation_start_event]
  · rw [key_end_event] at hk
    have hne : to_u32 p ≠ k := fun h => hk (by rw [h])
    refine ⟨fun k' hk' => ?_, ?_⟩
    · rw [step_end_event, step_end_event, lookup_end_handler, lookup_end_handler,
        hag k' hk']
    · rw [observation_end_event, observation_end_event]
      unfold end_delta
      rw [hag _ hne]
  · refine ⟨fun k' hk' => ?_, ?_⟩
    · rw [(h s1).1, (h s2).1]
      exact hag k' hk'
    · rw [(h s1).2, (h s2).2]

theorem on_key_cons_of_ne (k : Nat) (e : Event) (es : List Event) (hk : e.key ≠ some k) :
    on_key k (e :: es) = on_key k es ∧ off_key k (e :: es) = e :: off_key k es := by
  have hb : (e.key == some k) = false := by
    simpa using hk
  simp [on_key, off_key, List.filter_cons, hb]

theorem on_key_cons_of_eq (k : Nat) (e : Event) (es : List Event) (hk : e.key = some k) :
    on_key k (e :: es) = e :: on_key k es ∧ off_key k (e :: es) = off_key k es := by
  have hb : (e.key == some k) = true := by
    simp [hk]
  simp [on_key, off_key, List.filter_cons, hb]


theorem agree_after_step_on_key (k : Nat) (e : Event) (s1 s2 : State)
    (hag : ∀ k', k' ≠ k → s1.start.lookup k' = s2.start.lookup k')
    (hk : e.key = some k) :
    ∀ k', k' ≠ k → (step s1 e).start.lookup k' = s2.start.lookup k' := by
  intro k' hk'
  have hne : e.key ≠ some k' := by
    rw [hk]
    intro h
    exact hk' (Option.some.inj h).symm
  rw [lookup_step_other e s1 k' hne]
  exact hag k' hk'

theorem observations_done (k : Nat) :
    ∀ (es : List Event) (s1 s2 : State),
      (∀ k', k' ≠ k → s1.start.lookup k' = s2.start.lookup k') →
      on_key k es = [] →
      observations s1 es = observations s2 (off_key k es) := by
  intro es
  induction es with
  | nil => intro s1 s2 _ _; rfl
  | cons e es ih =>
    intro s1 s2 hag hon
    by_cases hk : e.key = some k
    · rw [(on_key_cons_of_eq k e es hk).1] at hon
      exact absurd hon (List.cons_ne_nil _ _)
    · rw [(on_key_cons_of_ne k e es hk).1] at hon
      rw [(on_key_cons_of_ne k e es hk).2]
      obtain ⟨hag', hobs⟩ := step_agree k e s1 s2 hag hk
      show (e.observation s1).toList ++ observations (step s1 e) es =
        (e.observation s2).toList ++ observations (step s2 e) (off_key k es)
      rw [hobs, ih (step s1 e) (step s2 e) hag' hon]

theorem observations_pending (x : Pair) (ts : Nat) :
    ∀ (es : List Event) (s1 s2 : State),
      (∀ k', k' ≠ x.key → s1.start.lookup k' = s2.start.lookup k') →
      s1.start.lookup x.key = some ts →
      on_key x.key es = [x.end_event] →
      (observations s1 es).Perm
        ((x.cls, x.key, u64_sub x.t_end ts) :: observations s2 (off_key x.key es)) := by
  intro es
  induction es with
  | nil => intro s1 s2 _ _ hon; exact absurd hon.symm (List.cons_ne_nil _ _)
  | cons e es ih =>
    intro s1 s2 hag hl hon
    by_cases hk : e.key = some x.key
    · rw [(on_key_cons_of_eq x.key e es hk).1] at hon
      rw [(on_key_cons_of_eq x.key e es hk).2]
      have he : e = x.end_event := (List.cons.inj hon).1
      have hrest : on_key x.key es = [] := (List.cons.inj hon).2
      have hobs : e.observation s1 = some (x.cls, x.key, u64_sub x.t_end ts) := by
        rw [he]
        unfold Pair.end_event
        rw [observation_end_event, end_delta_of_some s1 x.pid_tgid x.t_end ts hl]
        rfl
      have hag' := agree_after_step_on_key x.key e s1 s2 hag hk
      show ((e.observation s1).toList ++ observations (step s1 e) es).Perm _
      rw [hobs, observations_done x.key es (step s1 e) s2 hag' hrest]
      exact List.Perm.refl _
    · rw [(on_key_cons_of_ne x.key e es hk).1] at hon
      rw [(on_key_cons_of_ne x.key e es hk).2]
      obtain ⟨hag', hobs⟩ := step_agree x.key e s1 s2 hag hk
      have hl' : (step s1 e).start.lookup x.key = some ts := by
        rw [lookup_step_other e s1 x.key hk]
        exact hl
      have hp := ih (step s1 e) (step s2 e) hag' hl' hon
      show ((e.observation s1).toList ++ observations (step s1 e) es).Perm
        ((x.cls, x.key, u64_sub x.t_end ts) ::
          ((e.observation s2).toList ++ observations (step s2 e) (off_key x.key es)))
      rw [hobs]
      exact (List.Perm.append_left _ hp).trans List.perm_middle

theorem observations_fresh (x : Pair) :
    ∀ (es : List Event) (s1 s2 : State),
      (∀ k', k' ≠ x.key → s1.start.lookup k' = s2.start.lookup k') →
      on_key x.key es = [x.start_event, x.end_event] →
      (observations s1 es).Perm
        ((x.cls, x.key, u64_sub x.t_end (to_u64 x.t_start)) ::
          observations s2 (off_key x.key es)) := by
  intro es
  induction es with
  | nil => intro s1 s2 _ hon; exact absurd hon.symm (List.cons_ne_nil _ _)
  | cons e es ih =>
    intro s1 s2 hag hon
    by_cases hk : e.key = some x.key
    · rw [(on_key_cons_of_eq x.key e es hk).1] at hon
      rw [(on_key_cons_of_eq x.key e es hk).2]
      have he : e = x.start_event := (List.cons.inj hon).1
      have hrest : on_key x.key es = [x.end_event] := (List.cons.inj hon).2
      have hobs : e.observation s1 = none := by
        rw [he]
        exact observation_start_event _ _ _ _
      have hl : (step s1 e).start.lookup x.key = some (to_u64 x.t_start) := by
        rw [he]
        unfold Pair.start_event
        rw [step_start_event]
        exact lookup_after_start _ _ _ _
      have hag' := agree_after_step_on_key x.key e s1 s2 hag hk
      show ((e.observation s1).toList ++ observations (step s1 e) es).Perm _
      rw [hobs]
      exact observations_pending x _ es (step s1 e) s2 hag' hl hrest
    · rw [(on_key_cons_of_ne x.key e es hk).1] at hon
      rw [(on_key_cons_of_ne x.key e es hk).2]
      obtain ⟨hag', hobs⟩ := step_agree x.key e s1 s2 hag hk
      have hp := ih (step s1 e) (step s2 e) hag' hon
      show ((e.observation s1).toList ++ observations (step s1 e) es).Perm
        ((x.cls, x.key, u64_sub x.t_end (to_u64 x.t_start)) ::
          ((e.observation s2).toList ++ observations (step s2 e) (off_key x.key es)))
      rw [hobs]
      exact (List.Perm.append_left _ hp).trans List.perm_middle


theorem interleaves_off_key (x : Pair) (rest : List Pair) (es : List Event)
    (hkeys : ((x :: rest).map Pair.key).Nodup) (h : interleaves (x :: rest) es) :
    interleaves rest (off_key x.key es) := by
  have hx : x.key ∉ rest.map Pair.key := (List.nodup_cons.mp hkeys).1
  refine ⟨fun e he => ?_, fun y hy => ?_⟩
  · have hmem : e ∈ es ∧ (!(e.key == some x.key)) = true := by
      simpa [off_key, List.mem_filter] using he
    obtain ⟨y, hy, hkey⟩ := h.1 e hmem.1
    rcases List.mem_cons.mp hy with rfl | hy'
    · rw [hkey] at hmem
      simp at hmem
    · exact ⟨y, hy', hkey⟩
  · have hne : y.key ≠ x.key := by
      intro heq
      exact hx (heq ▸ List.mem_map_of_mem Pair.key hy)
    have hfil : on_key y.key (off_key x.key es) = on_key y.key es := by
      unfold on_key off_key
      rw [List.filter_filter]
      apply List.filter_congr
      intro e _
      by_cases hk : e.key = some y.key
      · simp [hk, hne]
      · simp [hk]
    rw [hfil]
    exact h.2 y (List.mem_cons_of_mem x hy)

theorem observations_of_interleaving :
    ∀ (pairs : List Pair) (es : List Event) (s : State),
      (pairs.map Pair.key).Nodup →
      (∀ x ∈ pairs, x.t_start ≤ x.t_end ∧ x.t_end < U64) →
      interleaves pairs es →
      (observations s es).Perm (pairs.map Pair.expected) := by
  intro pairs
  induction pairs with
  | nil =>
    intro es s _ _ hint
    cases es with
    | nil => exact List.Perm.refl _
    | cons e es =>
      obtain ⟨x, hx, _⟩ := hint.1 e (List.mem_cons_self e es)
      exact absurd hx (List.not_mem_nil x)
  | cons x rest ih =>
    intro es s hkeys htimes hint
    have hx := htimes x (List.mem_cons_self x rest)
    have hd : u64_sub x.t_end (to_u64 x.t_start) = x.t_end - x.t_start := by
      rw [to_u64_of_lt _ (lt_of_le_of_lt hx.1 hx.2)]
      exact u64_sub_of_le _ _ hx.1 hx.2
    have h1 := observations_fresh x es s s (fun _ _ => rfl)
      (hint.2 x (List.mem_cons_self x rest))
    rw [hd] at h1
    have h2 := ih (off_key x.key es) s (List.nodup_cons.mp hkeys).2
      (fun y hy => htimes y (List.mem_cons_of_mem x hy))
      (interleaves_off_key x rest es hkeys hint)
    exact h1.trans (List.Perm.cons _ h2)

theorem histogram_step_occurrence (e : Event) (h : e.key = none) (c : PairedClass)
    (s : State) : c.histogram (step s e) = c.histogram s := by
  cases e <;> cases c <;> first | rfl | exact absurd h (by simp [Event.key])

theorem histogram_step (c : PairedClass) (b : Nat) (e : Event) (s : State) :
    c.histogram (step s e) b =
      c.histogram s b +
        (e.observation s).toList.countP
          (fun o => decide (o.1 = c ∧ bpf_log2l o.2.2 = b)) := by
  rcases event_cases e with ⟨c', p, t, rfl⟩ | ⟨c', p, t, rfl⟩ | ⟨hk, h⟩
  · rw [step_start_event, histogram_after_start, observation_start_event]
    rfl
  · rw [step_end_event, observation_end_event]
    cases hl : s.start.lookup (to_u32 p) with
    | none =>
      rw [end_handler_of_none c' s p t hl, end_delta_of_none s p t hl]
      rfl
    | some ts =>
      rw [end_delta_of_some s p t ts hl]
      by_cases hc : c = c'
      · subst hc
        rw [end_handler_histogram c s p t ts hl]
        by_cases hb : b = bpf_log2l (u64_sub t ts)
        · subst hb
          simp [increment_self]
        · have hb' : ¬ bpf_log2l (u64_sub t ts) = b := fun h => hb h.symm
          simp [increment_other _ _ _ hb, hb']
      · rw [end_handler_other_histogram c' c s p t hc]
        have hc' : ¬ c' = c := fun h => hc h.symm
        simp [hc']
  · rw [histogram_step_occurrence e hk c s, (h s).2]
    rfl

theorem histogram_run (c : PairedClass) (b : Nat) :
    ∀ (es : List Event) (s : State),
      c.histogram (run s es) b =
        c.histogram s b +
          (observations s es).countP (fun o => decide (o.1 = c ∧ bpf_log2l o.2.2 = b)) := by
  intro es
  induction es with
  | nil => intro s; rfl
  | cons e es ih =>
    intro s
    show c.histogram (run (step s e) es) b = _
    rw [ih (step s e), histogram_step c b e s]
    show _ = _ + List.countP _ ((e.observation s).toList ++ observations (step s e) es)
    rw [List.countP_append]
    omega


/-- C12: for every prior state, every list of start/end pairs (of any of the
three classes) with pairwise distinct keys and times `s_i ≤ e_i`, and every
interleaving of their invocations in which the start of each key precedes its
own end, the run makes exactly `N` duration observations, one per pair, the one
for key `i` being `e_i - s_i` in the class of the pair; every histogram bucket
grows by the number of pairs of that class whose elapsed time falls in it. -/
theorem interleaved_pairs_observe_each_elapsed (s : State) (pairs : List Pair)
    (es : List Event)
    (hkeys : (pairs.map Pair.key).Nodup)
    (htimes : ∀ x ∈ pairs, x.t_start ≤ x.t_end ∧ x.t_end < U64)
    (hint : interleaves pairs es) :
    (observations s es).Perm (pairs.map Pair.expected) ∧
    (observations s es).length = pairs.length ∧
    ∀ (c : PairedClass) (b : Nat),
      c.histogram (run s es) b =
        c.histogram s b +
          pairs.countP
            (fun x => decide (x.cls = c ∧ bpf_log2l (x.t_end - x.t_start) = b)) := by
  have hp := observations_of_interleaving pairs es s hkeys htimes hint
  refine ⟨hp, ?_, fun c b => ?_⟩
  · rw [hp.length_eq, List.length_map]
  · rw [histogram_run c b es s, hp.countP_eq, List.countP_map]
    rfl

/-- Witness of C12: a packet pair on key 7 (1000 to 1512) and a lease pair on
key 8 (1100 to 1200), interleaved as start 7, start 8, end 7, end 8. -/
theorem interleaved_pairs_observe_each_elapsed_witness :
    (([⟨.packet, 7, 1000, 1512⟩, ⟨.lease, 8, 1100, 1200⟩] : List Pair).map Pair.key).Nodup ∧
    (∀ x ∈ ([⟨.packet, 7, 1000, 1512⟩, ⟨.lease, 8, 1100, 1200⟩] : List Pair),
      x.t_start ≤ x.t_end ∧ x.t_end < U64) ∧
    interleaves [⟨.packet, 7, 1000, 1512⟩, ⟨.lease, 8, 1100, 1200⟩]
      [.start 7 1000, .lease_allocation 8 1100, .finish 7 1512,
        .lease_allocation_end 8 1200] ∧
    (observations State.empty
      [.start 7 1000, .lease_allocation 8 1100, .finish 7 1512,
        .lease_allocation_end 8 1200]).Perm
      [(.packet, 7, 512), (.lease, 8, 100)] :=
  ⟨by decide, by decide, by unfold interleaves; decide,
   (interleaved_pairs_observe_each_elapsed State.empty
      [⟨.packet, 7, 1000, 1512⟩, ⟨.lease, 8, 1100, 1200⟩]
      [.start 7 1000, .lease_allocation 8 1100, .finish 7 1512,
        .lease_allocation_end 8 1200]
      (by decide) (by decide) (by unfold interleaves; decide)).1⟩


/-! ## Lemmas on totals and pending entries -/

theorem hist_total_increment (h : BPFHistogram) (b : Nat) :
    hist_total (h.increment b) = hist_total h + (if b < 64 then 1 else 0) := by
  unfold hist_total BPFHistogram.increment
  have hsplit : ∀ j, (if j = b then h j + 1 else h j) = h j + (if j = b then 1 else 0) := by
    intro j
    split <;> rfl
  simp only [hsplit, Finset.sum_add_distrib, Finset.sum_ite_eq', Finset.mem_range]

theorem bpf_log2l_lt (d : Nat) (hd : d < U64) : bpf_log2l d < 64 := by
  obtain ⟨ha, hb⟩ := bpf_log2l_spec d hd
  have hm : max d 1 < 2 ^ 64 := max_lt hd (by decide)
  by_contra hge
  have : 2 ^ 64 ≤ 2 ^ bpf_log2l d := Nat.pow_le_pow_right (by decide) (by omega)
  omega

theorem length_delete_le (k : Nat) (m : BPFHash) :
    (BPFHash.delete k m).length ≤ m.length := by
  induction m with
  | nil => exact le_rfl
  | cons e m ih =>
    obtain ⟨a, v⟩ := e
    by_cases ha : a = k
    · simp only [BPFHash.delete, ha, if_true, List.length_cons]
      omega
    · simp only [BPFHash.delete, ha, if_false, List.length_cons]
      omega

theorem length_delete_lt (k ts : Nat) (m : BPFHash) (h : BPFHash.lookup k m = some ts) :
    (BPFHash.delete k m).length + 1 ≤ m.length := by
  induction m with
  | nil => simp [BPFHash.lookup] at h
  | cons e m ih =>
    obtain ⟨a, v⟩ := e
    by_cases ha : a = k
    · have := length_delete_le k m
      simp only [BPFHash.delete, ha, if_true, List.length_cons]
      omega
    · simp only [BPFHash.lookup, ha, if_false] at h
      have := ih h
      simp only [BPFHash.delete, ha, if_false, List.length_cons]
      omega

theorem mem_keys_delete (k k' : Nat) (m : BPFHash)
    (h : k' ∈ (BPFHash.delete k m).map Prod.fst) :
    k' ∈ m.map Prod.fst ∧ k' ≠ k := by
  induction m with
  | nil => simp [BPFHash.delete] at h
  | cons e m ih =>
    obtain ⟨a, v⟩ := e
    by_cases ha : a = k
    · simp only [BPFHash.delete, ha, if_true] at h
      obtain ⟨h1, h2⟩ := ih h
      exact ⟨List.mem_cons_of_mem _ h1, h2⟩
    · simp only [BPFHash.delete, ha, if_false, List.map_cons, List.mem_cons] at h
      rcases h with rfl | h
      · exact ⟨List.mem_cons_self _ _, ha⟩
      · obtain ⟨h1, h2⟩ := ih h
        exact ⟨List.mem_cons_of_mem _ h1, h2⟩

theorem nodup_keys_delete (k : Nat) (m : BPFHash) (h : (m.map Prod.fst).Nodup) :
    ((BPFHash.delete k m).map Prod.fst).Nodup := by
  induction m with
  | nil => exact List.nodup_nil
  | cons e m ih =>
    obtain ⟨a, v⟩ := e
    have hm : (m.map Prod.fst).Nodup := (List.nodup_cons.mp h).2
    have ha' : a ∉ m.map Prod.fst := (List.nodup_cons.mp h).1
    by_cases ha : a = k
    · simp only [BPFHash.delete, ha, if_true]
      exact ih hm
    · simp only [BPFHash.delete, ha, if_false, List.map_cons]
      exact List.nodup_cons.mpr ⟨fun hmem => ha' (mem_keys_delete k a m hmem).1, ih hm⟩

theorem nodup_keys_update (k v : Nat) (m : BPFHash) (h : (m.map Prod.fst).Nodup) :
    ((BPFHash.update k v m).map Prod.fst).Nodup := by
  unfold BPFHash.update
  rw [List.map_cons]
  exact List.nodup_cons.mpr
    ⟨fun hmem => (mem_keys_delete k k m hmem).2 rfl, nodup_keys_delete k m h⟩


theorem is_start_start_event (c : PairedClass) (p t : Nat) :
    (c.start_event p t).is_start = true := by
  cases c <;> rfl

theorem is_start_end_event (c : PairedClass) (p t : Nat) :
    (c.end_event p t).is_start = false := by
  cases c <;> rfl

theorem is_start_of_key_none (e : Event) (h : e.key = none) : e.is_start = false := by
  cases e <;> first | rfl | exact absurd h (by simp [Event.key])

theorem duration_total_end_handler (c : PairedClass) (s : State) (p t ts : Nat)
    (hl : s.start.lookup (to_u32 p) = some ts) :
    duration_total (c.end_handler s p t) = duration_total s + 1 := by
  have hb : bpf_log2l (u64_sub t ts) < 64 := bpf_log2l_lt _ (u64_sub_lt t ts)
  cases c <;>
    simp [PairedClass.end_handler, trace_end, trace_lease_allocation_end,
      trace_database_query_end, hl, duration_total, hist_total_increment, hb] <;>
    omega

theorem total_pending_step (e : Event) (s : State) :
    duration_total (step s e) + pending_count (step s e) ≤
      duration_total s + pending_count s + (if e.is_start = true then 1 else 0) := by
  rcases event_cases e with ⟨c, p, t, rfl⟩ | ⟨c, p, t, rfl⟩ | ⟨hk, h⟩
  · rw [is_start_start_event, if_pos rfl, step_start_event, start_handler_eq]
    have hlen := length_delete_le (to_u32 p) s.start
    show duration_total s + ((to_u32 p, to_u64 t) :: BPFHash.delete (to_u32 p) s.start).length
      ≤ duration_total s + s.start.length + 1
    rw [List.length_cons]
    omega
  · rw [is_start_end_event, step_end_event]
    cases hl : s.start.lookup (to_u32 p) with
    | none =>
      rw [end_handler_of_none c s p t hl]
      simp
    | some ts =>
      rw [duration_total_end_handler c s p t ts hl]
      have hlen := length_delete_lt (to_u32 p) ts s.start hl
      unfold pending_count
      rw [end_handler_start c s p t ts hl]
      simp
      omega
  · rw [is_start_of_key_none e hk]
    have h1 := histogram_step_occurrence e hk .packet s
    have h2 := histogram_step_occurrence e hk .lease s
    have h3 := histogram_step_occurrence e hk .database s
    have hd : duration_total (step s e) = duration_total s := by
      show hist_total (PairedClass.packet.histogram (step s e)) +
          hist_total (PairedClass.lease.histogram (step s e)) +
          hist_total (PairedClass.database.histogram (step s e)) = _
      rw [h1, h2, h3]
      rfl
    unfold pending_count
    rw [hd, (h s).1]
    simp

theorem keys_step (e : Event) (s : State) (hnd : (s.start.map Prod.fst).Nodup) :
    ((step s e).start.map Prod.fst).Nodup ∧
    ∀ k ∈ (step s e).start.map Prod.fst,
      k ∈ s.start.map Prod.fst ∨ (e.is_start = true ∧ e.key = some k) := by
  rcases event_cases e with ⟨c, p, t, rfl⟩ | ⟨c, p, t, rfl⟩ | ⟨_, h⟩
  · rw [step_start_event, start_handler_eq]
    refine ⟨nodup_keys_update _ _ _ hnd, fun k hk => ?_⟩
    have hk' : k ∈ (to_u32 p) :: (BPFHash.delete (to_u32 p) s.start).map Prod.fst := hk
    rcases List.mem_cons.mp hk' with rfl | hmem
    · exact Or.inr ⟨is_start_start_event c p t, key_start_event c p t⟩
    · exact Or.inl (mem_keys_delete _ _ _ hmem).1
  · rw [step_end_event]
    cases hl : s.start.lookup (to_u32 p) with
    | none =>
      rw [end_handler_of_none c s p t hl]
      exact ⟨hnd, fun k hk => Or.inl hk⟩
    | some ts =>
      rw [end_handler_start c s p t ts hl]
      exact ⟨nodup_keys_delete _ _ hnd, fun k hk => Or.inl (mem_keys_delete _ _ _ hk).1⟩
  · rw [(h s).1]
    exact ⟨hnd, fun k hk => Or.inl hk⟩

theorem high_buckets_step (c : PairedClass) (e : Event) (s : State)
    (hz : ∀ i, 64 ≤ i → c.histogram s i = 0) :
    ∀ i, 64 ≤ i → c.histogram (step s e) i = 0 := by
  intro i hi
  rcases event_cases e with ⟨c', p, t, rfl⟩ | ⟨c', p, t, rfl⟩ | ⟨hk, _⟩
  · rw [step_start_event, histogram_after_start]
    exact hz i hi
  · rw [step_end_event]
    cases hl : s.start.lookup (to_u32 p) with
    | none =>
      rw [end_handler_of_none c' s p t hl]
      exact hz i hi
    | some ts =>
      by_cases hc : c = c'
      · subst hc
        have hb : bpf_log2l (u64_sub t ts) < 64 := bpf_log2l_lt _ (u64_sub_lt t ts)
        rw [end_handler_histogram c s p t ts hl, increment_other _ _ _ (by omega)]
        exact hz i hi
      · rw [end_handler_other_histogram c' c s p t hc]
        exact hz i hi
  · rw [histogram_step_occurrence e hk c s]
    exact hz i hi


theorem run_append_singleton (s : State) (es : List Event) (e : Event) :
    run s (es ++ [e]) = step (run s es) e := by
  simp [run, List.foldl_append]

theorem start_count_append_singleton (es : List Event) (e : Event) :
    start_count (es ++ [e]) = start_count es + (if e.is_start = true then 1 else 0) := by
  unfold start_count
  rw [List.countP_append, List.countP_cons, List.countP_nil]
  simp

theorem mem_started_keys (k : Nat) (es : List Event) :
    k ∈ started_keys es ↔ ∃ e ∈ es, e.is_start = true ∧ e.key = some k := by
  unfold started_keys
  rw [List.mem_dedup, List.mem_filterMap]
  constructor
  · rintro ⟨e, he, hk⟩
    rw [List.mem_filter] at he
    exact ⟨e, he.1, he.2, hk⟩
  · rintro ⟨e, he, hs, hk⟩
    exact ⟨e, List.mem_filter.mpr ⟨he, hs⟩, hk⟩

theorem run_from_empty_invariant (es : List Event) :
    duration_total (run State.empty es) + pending_count (run State.empty es) ≤
      start_count es ∧
    ((run State.empty es).start.map Prod.fst).Nodup ∧
    (∀ k ∈ (run State.empty es).start.map Prod.fst, k ∈ started_keys es) ∧
    (∀ (c : PairedClass) (i : Nat), 64 ≤ i → c.histogram (run State.empty es) i = 0) := by
  induction es using List.reverseRecOn with
  | nil =>
    refine ⟨?_, List.nodup_nil, ?_, ?_⟩
    · simp [run, duration_total, hist_total, State.empty, pending_count, start_count]
    · intro k hk
      simp [run, State.empty] at hk
    · intro c i _
      cases c <;> rfl
  | append_singleton es e ih =>
    obtain ⟨h1, h2, h3, h4⟩ := ih
    rw [run_append_singleton, start_count_append_singleton]
    have hs := total_pending_step e (run State.empty es)
    obtain ⟨hk1, hk2⟩ := keys_step e (run State.empty es) h2
    refine ⟨by omega, hk1, fun k hk => ?_, fun c => high_buckets_step c e _ (h4 c)⟩
    rw [mem_started_keys]
    rcases hk2 k hk with hold | ⟨hst, hkey⟩
    · obtain ⟨e', he', hp⟩ := (mem_started_keys k es).mp (h3 k hold)
      exact ⟨e', List.mem_append_left _ he', hp⟩
    · exact ⟨e, List.mem_append_right _ (List.mem_singleton_self e), hst, hkey⟩

/-- C16: every observation consumes a distinct recorded start.  For every finite
sequence of handler invocations beginning in the empty state, the total of all
bucket counts of the three duration histograms (whose buckets from 64 on stay
empty) plus the number of entries pending in the start map is at most the
number of start-handler invocations in the sequence, and the number of pending
entries, which have pairwise distinct keys, is at most the number of distinct
keys that have been started. -/
theorem observations_consume_distinct_starts (es : List Event) :
    duration_total (run State.empty es) + pending_count (run State.empty es) ≤
      start_count es ∧
    pending_count (run State.empty es) ≤ (started_keys es).length ∧
    ((run State.empty es).start.map Prod.fst).Nodup ∧
    (∀ (c : PairedClass) (i : Nat), 64 ≤ i → c.histogram (run State.empty es) i = 0) := by
  obtain ⟨h1, h2, h3, h4⟩ := run_from_empty_invariant es
  refine ⟨h1, ?_, h2, h4⟩
  have hsub : (run State.empty es).start.map Prod.fst ⊆ started_keys es := fun k hk => h3 k hk
  have hle := (List.subperm_of_subset h2 hsub).length_le
  rw [List.length_map] at hle
  exact hle

end KeaMetrics
